import Mathlib

/-!
Verification of the strudel sample-server repository (src/server.py and
src/strudel.py) against its natural-language specification.

Shallow embedding conventions:
* Python strings are `List Char` (code points; the ASCII fragment is what the
  program manipulates).
* A directory's contents are a `List (List Char)` of file names; the file
  system seen by `os.walk` is a list of directory entries in walk order
  (`os.scandir` order is unspecified, so the entry order is an input).
* `pathlib.Path.stem` / `.suffix` are modelled by `stemSuffix` below, which
  mirrors CPython's splitext rule: the suffix starts at the last dot provided
  that dot is neither the first nor the last character of the name.
-/

/-- Python whitespace (`str.strip` / regex `\s`), ASCII fragment:
space, tab, newline, carriage return, vertical tab, form feed. -/
def isWs (c : Char) : Bool :=
  decide (c = ' ' ∨ c = '\t' ∨ c = '\n' ∨ c = '\r' ∨ c.toNat = 11 ∨ c.toNat = 12)

/-- Python `str.strip()`: drop whitespace from both ends. -/
def trimWs (s : List Char) : List Char :=
  ((s.dropWhile isWs).reverse.dropWhile isWs).reverse

/-- Model of `re.sub(r"\s+", "-", s)`: every maximal run of whitespace
becomes a single dash. -/
def squashWs : List Char → List Char
  | [] => []
  | [c] => if isWs c then ['-'] else [c]
  | c :: d :: t =>
    if isWs c then
      (if isWs d then squashWs (d :: t) else '-' :: squashWs (d :: t))
    else c :: squashWs (d :: t)

/-- Model of `re.sub(r"-{2,}", "-", s)`: every maximal run of dashes becomes a
single dash (a run of length one is returned unchanged, which coincides). -/
def squashDash : List Char → List Char
  | [] => []
  | [c] => [c]
  | c :: d :: t =>
    if c = '-' ∧ d = '-' then squashDash (d :: t)
    else c :: squashDash (d :: t)

/-- CPython `PurePath.stem` and `.suffix` of a file name: the suffix starts at
the last `.` when that dot is neither at index 0 nor the last character;
otherwise the suffix is empty and the stem is the whole name. -/
def notDot (c : Char) : Bool := c ≠ '.'

/-- Characters strictly after the last dot of the name (reversed):
`name[i+1:]` reversed, where `i = name.rfind('.')`; the whole reversed name
when there is no dot. -/
def afterDot (n : List Char) : List Char := n.reverse.takeWhile notDot

def stemSuffix (n : List Char) : List Char × List Char :=
  if (afterDot n).length = n.length then (n, [])
  else if (afterDot n).length = 0 then (n, [])
  else if n.length < (afterDot n).length + 2 then (n, [])
  else (n.take (n.length - (afterDot n).length - 1), '.' :: (afterDot n).reverse)

/-- Processing the stem in `safe_audio_name`:
`re.sub(r"-{2,}", "-", re.sub(r"\s+", "-", p.stem.strip()))`. -/
def stemClean (s : List Char) : List Char :=
  squashDash (squashWs (trimWs s))

/-- Function `safe_audio_name` from src/server.py lines 16-21 (identical in
src/strudel.py lines 14-24): sanitize the stem, keep the suffix. -/
def safe_audio_name (n : List Char) : List Char :=
  stemClean (stemSuffix n).1 ++ (stemSuffix n).2

example : safe_audio_name ("snare A.wav").data = ("snare-A.wav").data := by decide
example : safe_audio_name ("a  -  b.flac").data = ("a-b.flac").data := by decide
example : safe_audio_name ("  a.wav").data = ("a.wav").data := by decide
example : safe_audio_name ("   .wav").data = (".wav").data := by decide
example : safe_audio_name (" .w av").data = (".w av").data := by decide
example : safe_audio_name (".w av").data = (".w-av").data := by decide
example : safe_audio_name ("foo.").data = ("foo.").data := by decide
example : safe_audio_name ("noext").data = ("noext").data := by decide

/-- No character of the list is whitespace. -/
def noWsB (l : List Char) : Bool := l.all (fun c => !isWs c)

/-- No two adjacent characters are both a dash. -/
def noDDB : List Char → Bool
  | [] => true
  | [_] => true
  | a :: b :: t => if a = '-' ∧ b = '-' then false else noDDB (b :: t)

theorem noWsB_squashWs (l : List Char) : noWsB (squashWs l) = true := by
  induction l with
  | nil => rfl
  | cons c t ih =>
    cases t with
    | nil =>
      by_cases h : isWs c = true
      · have he : squashWs [c] = ['-'] := by simp [squashWs, h]
        rw [he]; decide
      · simp only [Bool.not_eq_true] at h
        have he : squashWs [c] = [c] := by simp [squashWs, h]
        rw [he]
        simp [noWsB, h]
    | cons d t' =>
      by_cases h : isWs c = true
      · by_cases h2 : isWs d = true
        · simpa [squashWs, h, h2] using ih
        · simp only [Bool.not_eq_true] at h2
          have he : squashWs (c :: d :: t') = '-' :: squashWs (d :: t') := by
            rw [squashWs, if_pos h, if_neg (by simp [h2])]
          rw [he]
          unfold noWsB
          rw [List.all_cons, Bool.and_eq_true]
          exact ⟨by decide, ih⟩
      · simp only [Bool.not_eq_true] at h
        have he : squashWs (c :: d :: t') = c :: squashWs (d :: t') := by
          rw [squashWs, if_neg (by simp [h])]
        rw [he]
        unfold noWsB
        rw [List.all_cons, Bool.and_eq_true]
        exact ⟨by simp [h], ih⟩

theorem head?_squashDash (d : Char) (t : List Char) (hd : ¬ d = '-') :
    (squashDash (d :: t)).head? = some d := by
  cases t with
  | nil => rfl
  | cons e t' =>
    have : ¬ (d = '-' ∧ e = '-') := fun h => hd h.1
    simp [squashDash, this]

theorem noDDB_squashDash (l : List Char) : noDDB (squashDash l) = true := by
  induction l with
  | nil => rfl
  | cons c t ih =>
    cases t with
    | nil => rfl
    | cons d t' =>
      by_cases h : c = '-' ∧ d = '-'
      · simpa [squashDash, h] using ih
      · simp only [squashDash, h, if_false]
        rcases hx : squashDash (d :: t') with _ | ⟨x, xs⟩
        · rfl
        · have hih : noDDB (x :: xs) = true := by rw [← hx]; exact ih
          by_cases hc : c = '-'
          · have hdne : ¬ d = '-' := fun hdd => h ⟨hc, hdd⟩
            have hhead : (squashDash (d :: t')).head? = some d :=
              head?_squashDash d t' hdne
            rw [hx] at hhead
            simp only [List.head?_cons, Option.some.injEq] at hhead
            have : ¬ (c = '-' ∧ x = '-') := by
              rintro ⟨_, hx2⟩; exact hdne (hhead ▸ hx2)
            simpa [noDDB, this] using hih
          · have : ¬ (c = '-' ∧ x = '-') := fun hcc => hc hcc.1
            simpa [noDDB, this] using hih

theorem squashWs_of_noWs (l : List Char) (h : noWsB l = true) : squashWs l = l := by
  induction l with
  | nil => rfl
  | cons c t ih =>
    simp only [noWsB, List.all_cons, Bool.and_eq_true, Bool.not_eq_true'] at h
    cases t with
    | nil => simp [squashWs, h.1]
    | cons d t' =>
      have ht : squashWs (d :: t') = d :: t' := ih (by simpa [noWsB] using h.2)
      simp [squashWs, h.1, ht]

theorem squashDash_of_noDD (l : List Char) (h : noDDB l = true) : squashDash l = l := by
  induction l with
  | nil => rfl
  | cons c t ih =>
    cases t with
    | nil => rfl
    | cons d t' =>
      by_cases hcd : c = '-' ∧ d = '-'
      · simp [noDDB, hcd] at h
      · have ht : noDDB (d :: t') = true := by
          simpa [noDDB, hcd] using h
        simp [squashDash, hcd, ih ht]

theorem mem_squashDash (l : List Char) (x : Char) (h : x ∈ squashDash l) : x ∈ l := by
  induction l with
  | nil => simp [squashDash] at h
  | cons c t ih =>
    cases t with
    | nil => simpa [squashDash] using h
    | cons d t' =>
      by_cases hcd : c = '-' ∧ d = '-'
      · have he : squashDash (c :: d :: t') = squashDash (d :: t') := by
          simp only [squashDash]; rw [if_pos hcd]
        rw [he] at h
        exact List.mem_cons_of_mem c (ih h)
      · simp only [squashDash, hcd, if_false, List.mem_cons] at h
        rcases h with h | h
        · exact h ▸ List.mem_cons_self c _
        · exact List.mem_cons_of_mem c (ih h)

theorem noWsB_squashDash (l : List Char) (h : noWsB l = true) :
    noWsB (squashDash l) = true := by
  simp only [noWsB, List.all_eq_true] at h ⊢
  exact fun x hx => h x (mem_squashDash l x hx)

theorem dropWhile_isWs_of_noWs (l : List Char) (h : noWsB l = true) :
    l.dropWhile isWs = l := by
  cases l with
  | nil => rfl
  | cons c t =>
    simp only [noWsB, List.all_cons, Bool.and_eq_true, Bool.not_eq_true'] at h
    simp [List.dropWhile_cons, h.1]

theorem noWsB_reverse (l : List Char) (h : noWsB l = true) : noWsB l.reverse = true := by
  simp only [noWsB, List.all_eq_true, List.mem_reverse] at h ⊢
  exact h

theorem trimWs_of_noWs (l : List Char) (h : noWsB l = true) : trimWs l = l := by
  unfold trimWs
  rw [dropWhile_isWs_of_noWs l h, dropWhile_isWs_of_noWs l.reverse (noWsB_reverse l h),
    List.reverse_reverse]

theorem noWsB_stemClean (s : List Char) : noWsB (stemClean s) = true :=
  noWsB_squashDash _ (noWsB_squashWs _)

theorem noDDB_stemClean (s : List Char) : noDDB (stemClean s) = true :=
  noDDB_squashDash _

theorem stemClean_of_clean (s : List Char) (hw : noWsB s = true) (hd : noDDB s = true) :
    stemClean s = s := by
  unfold stemClean
  rw [trimWs_of_noWs s hw, squashWs_of_noWs s hw, squashDash_of_noDD s hd]


theorem takeWhile_append_stop (p : Char → Bool) (a : List Char) (b : Char) (r : List Char)
    (ha : ∀ c ∈ a, p c = true) (hb : p b = false) :
    (a ++ b :: r).takeWhile p = a := by
  induction a with
  | nil => simp [List.takeWhile_cons, hb]
  | cons x xs ih =>
    have hx : p x = true := ha x (List.mem_cons_self x xs)
    have hxs : ∀ c ∈ xs, p c = true := fun c hc => ha c (List.mem_cons_of_mem x hc)
    simp [List.takeWhile_cons, hx, ih hxs]

theorem mem_takeWhile_pred (p : Char → Bool) (l : List Char) (x : Char)
    (h : x ∈ l.takeWhile p) : p x = true := by
  induction l with
  | nil => simp [List.takeWhile_nil] at h
  | cons c t ih =>
    rw [List.takeWhile_cons] at h
    by_cases hc : p c = true
    · rw [if_pos hc] at h
      rcases List.mem_cons.mp h with h | h
      · exact h ▸ hc
      · exact ih h
    · rw [if_neg hc] at h
      simp at h

theorem dropWhile_cons_pred_false (p : Char → Bool) (l : List Char) (c : Char) (r : List Char)
    (h : l.dropWhile p = c :: r) : p c = false := by
  induction l with
  | nil => simp [List.dropWhile_nil] at h
  | cons x xs ih =>
    rw [List.dropWhile_cons] at h
    by_cases hx : p x = true
    · rw [if_pos hx] at h
      exact ih h
    · rw [if_neg hx] at h
      cases h
      simpa using hx

theorem mem_afterDot_ne_dot (n : List Char) (x : Char) (h : x ∈ afterDot n) : ¬ x = '.' := by
  have := mem_takeWhile_pred notDot n.reverse x h
  simpa [notDot] using this

theorem stemSuffix_recompose (n : List Char) : (stemSuffix n).1 ++ (stemSuffix n).2 = n := by
  unfold stemSuffix
  by_cases h1 : (afterDot n).length = n.length
  · rw [if_pos h1]; simp
  · by_cases h2 : (afterDot n).length = 0
    · rw [if_neg h1, if_pos h2]; simp
    · by_cases h3 : n.length < (afterDot n).length + 2
      · rw [if_neg h1, if_neg h2, if_pos h3]; simp
      · rw [if_neg h1, if_neg h2, if_neg h3]
        have hsplit : afterDot n ++ n.reverse.dropWhile notDot = n.reverse := by
          rw [afterDot]; exact List.takeWhile_append_dropWhile notDot n.reverse
        rcases hd : n.reverse.dropWhile notDot with _ | ⟨c, d'⟩
        · exfalso
          rw [hd, List.append_nil] at hsplit
          exact h1 (by rw [hsplit, List.length_reverse])
        · have hc : c = '.' := by
            have := dropWhile_cons_pred_false notDot n.reverse c d' hd
            simpa [notDot] using this
          subst hc
          rw [hd] at hsplit
          have hn : n = d'.reverse ++ '.' :: (afterDot n).reverse := by
            have h5 := congrArg List.reverse hsplit
            rw [List.reverse_append, List.reverse_reverse, List.reverse_cons] at h5
            conv_lhs => rw [← h5]
            rw [List.append_assoc]
            rfl
          have hlen : n.length - (afterDot n).length - 1 = d'.reverse.length := by
            have h4 := congrArg List.length hsplit
            simp only [List.length_append, List.length_cons, List.length_reverse] at h4 ⊢
            omega
          have htake : n.take d'.reverse.length = d'.reverse := by
            conv_lhs => rw [hn]
            exact List.take_left _ _
          show n.take (n.length - (afterDot n).length - 1) ++ '.' :: (afterDot n).reverse = n
          rw [hlen, htake]
          exact hn.symm

theorem stemSuffix_suffix_shape (n : List Char) :
    (stemSuffix n).2 = [] ∨
      ∃ t, (stemSuffix n).2 = '.' :: t ∧ t ≠ [] ∧ '.' ∉ t := by
  unfold stemSuffix
  by_cases h1 : (afterDot n).length = n.length
  · rw [if_pos h1]; left; rfl
  · by_cases h2 : (afterDot n).length = 0
    · rw [if_neg h1, if_pos h2]; left; rfl
    · by_cases h3 : n.length < (afterDot n).length + 2
      · rw [if_neg h1, if_neg h2, if_pos h3]; left; rfl
      · rw [if_neg h1, if_neg h2, if_neg h3]
        right
        refine ⟨(afterDot n).reverse, rfl, ?_, ?_⟩
        · intro hnil
          apply h2
          have := congrArg List.length hnil
          simpa using this
        · intro hmem
          rw [List.mem_reverse] at hmem
          exact mem_afterDot_ne_dot n '.' hmem rfl

theorem noWsB_append_left (a b : List Char) (h : noWsB (a ++ b) = true) : noWsB a = true := by
  simp only [noWsB, List.all_append, Bool.and_eq_true] at h
  exact h.1

theorem noDDB_append_left (a b : List Char) (h : noDDB (a ++ b) = true) : noDDB a = true := by
  induction a with
  | nil => rfl
  | cons x xs ih =>
    cases xs with
    | nil => rfl
    | cons y ys =>
      have hx : (x :: y :: ys) ++ b = x :: y :: (ys ++ b) := rfl
      rw [hx] at h
      by_cases hxy : x = '-' ∧ y = '-'
      · rw [noDDB, if_pos hxy] at h
        exact absurd h (by simp)
      · rw [noDDB, if_neg hxy] at h
        have := ih (by simpa using h)
        rw [noDDB, if_neg hxy]
        exact this

theorem safe_of_clean (l : List Char) (hw : noWsB l = true) (hd : noDDB l = true) :
    safe_audio_name l = l := by
  have hrec := stemSuffix_recompose l
  have hw1 : noWsB (stemSuffix l).1 = true := by
    rw [← hrec] at hw
    exact noWsB_append_left _ _ hw
  have hd1 : noDDB (stemSuffix l).1 = true := by
    rw [← hrec] at hd
    exact noDDB_append_left _ _ hd
  unfold safe_audio_name
  rw [stemClean_of_clean _ hw1 hd1, hrec]

theorem stemSuffix_append_ext (S t : List Char) (hS : S ≠ []) (ht : t ≠ []) (hd : '.' ∉ t) :
    stemSuffix (S ++ '.' :: t) = (S, '.' :: t) := by
  have hA : afterDot (S ++ '.' :: t) = t.reverse := by
    rw [afterDot, List.reverse_append, List.reverse_cons, List.append_assoc,
      List.singleton_append]
    exact takeWhile_append_stop notDot t.reverse '.' S.reverse
      (fun c hc => by
        have : c ∈ t := List.mem_reverse.mp hc
        have hne : ¬ c = '.' := fun he => hd (he ▸ this)
        simp [notDot, hne])
      (by simp [notDot])
  have hlS : 1 ≤ S.length := List.length_pos.mpr hS
  have hlt : 1 ≤ t.length := List.length_pos.mpr ht
  have hL : (S ++ '.' :: t).length = S.length + t.length + 1 := by
    simp only [List.length_append, List.length_cons]
    omega
  unfold stemSuffix
  rw [hA, List.length_reverse]
  rw [if_neg (by rw [hL]; omega), if_neg (by omega), if_neg (by rw [hL]; omega),
    List.reverse_reverse]
  have htake : (S ++ '.' :: t).take ((S ++ '.' :: t).length - t.length - 1) = S := by
    have hc : (S ++ '.' :: t).length - t.length - 1 = S.length := by rw [hL]; omega
    rw [hc]
    exact List.take_left _ _
  rw [htake]

/-- C5 counterexample seed: sanitizing `" .w av"` yields `".w av"`, and
sanitizing that again yields `".w-av"`, so the sanitizer is not idempotent. -/
theorem c5_idempotent_counterexample :
    safe_audio_name (safe_audio_name (" .w av").data) ≠ safe_audio_name (" .w av").data := by
  decide

/-- C5 (amended): the sanitizer is idempotent on every filename whose stem does
not sanitize to the empty string, and also whenever the extension contains no
whitespace and no dash run; it can fail only when an all-whitespace-sanitized
stem exposes a dirty extension as the new stem. -/
theorem c5_idempotent_amended (n : List Char)
    (h : stemClean (stemSuffix n).1 ≠ [] ∨
      (noWsB (stemSuffix n).2 = true ∧ noDDB (stemSuffix n).2 = true)) :
    safe_audio_name (safe_audio_name n) = safe_audio_name n := by
  have hsafe : safe_audio_name n = stemClean (stemSuffix n).1 ++ (stemSuffix n).2 := rfl
  rcases stemSuffix_suffix_shape n with hE | ⟨t, hE, htne, htd⟩
  · rw [hsafe, hE, List.append_nil]
    exact safe_of_clean _ (noWsB_stemClean _) (noDDB_stemClean _)
  · by_cases hS : stemClean (stemSuffix n).1 = []
    · rcases h with h | h
      · exact absurd hS h
      · rw [hsafe, hS, List.nil_append]
        exact safe_of_clean _ h.1 h.2
    · rw [hsafe, hE]
      unfold safe_audio_name
      rw [stemSuffix_append_ext _ t hS htne htd]
      show stemClean (stemClean (stemSuffix n).1) ++ '.' :: t
        = stemClean (stemSuffix n).1 ++ '.' :: t
      rw [stemClean_of_clean _ (noWsB_stemClean _) (noDDB_stemClean _)]

theorem c5_idempotent_amended_witness :
    (stemClean (stemSuffix ("a b.wav").data).1 ≠ [] ∨
      (noWsB (stemSuffix ("a b.wav").data).2 = true ∧
        noDDB (stemSuffix ("a b.wav").data).2 = true)) ∧
    safe_audio_name (safe_audio_name ("a b.wav").data) = safe_audio_name ("a b.wav").data :=
  ⟨Or.inl (by decide), c5_idempotent_amended ("a b.wav").data (Or.inl (by decide))⟩

/-- Modelled from the spec's words of C4, for refinement comparison only:
split the name into stem and extension, replace every maximal whitespace run of
the stem by a single dash, collapse dash runs, keep the extension — with no
prior stripping of the stem's leading/trailing whitespace. -/
def sanitizeSpecC4 (n : List Char) : List Char :=
  squashDash (squashWs (stemSuffix n).1) ++ (stemSuffix n).2

/-- C4 counterexample: on `" a.wav"` the code strips the leading space
(`"a.wav"`), while the claim's replace-every-run rule would give `"-a.wav"`. -/
theorem c4_sanitize_spec_counterexample :
    safe_audio_name (" a.wav").data ≠ sanitizeSpecC4 (" a.wav").data ∧
    safe_audio_name (" a.wav").data = ("a.wav").data ∧
    sanitizeSpecC4 (" a.wav").data = ("-a.wav").data := by
  refine ⟨by decide, by decide, by decide⟩

/-- C4 (amended): `safe_audio_name` splits the name into stem and extension,
first strips leading/trailing whitespace of the stem, then replaces every
maximal whitespace run by a single dash and collapses dash runs, and keeps the
extension unchanged; the resulting stem contains no whitespace and no run of
two or more dashes. -/
theorem c4_sanitize_amended (n : List Char) :
    safe_audio_name n
        = squashDash (squashWs (trimWs (stemSuffix n).1)) ++ (stemSuffix n).2 ∧
      noWsB (stemClean (stemSuffix n).1) = true ∧
      noDDB (stemClean (stemSuffix n).1) = true :=
  ⟨rfl, noWsB_stemClean _, noDDB_stemClean _⟩

theorem dropWhile_isWs_allWs (l : List Char) (h : l.all isWs = true) :
    l.dropWhile isWs = [] := by
  induction l with
  | nil => rfl
  | cons c t ih =>
    simp only [List.all_cons, Bool.and_eq_true] at h
    rw [List.dropWhile_cons, if_pos h.1]
    exact ih h.2

theorem trimWs_allWs (l : List Char) (h : l.all isWs = true) : trimWs l = [] := by
  unfold trimWs
  rw [dropWhile_isWs_allWs l h]
  rfl

theorem dropWhile_isWs_append_allWs (w z : List Char) (hw : w.all isWs = true) :
    (w ++ z).dropWhile isWs = z.dropWhile isWs := by
  induction w with
  | nil => rfl
  | cons c t ih =>
    simp only [List.all_cons, Bool.and_eq_true] at hw
    rw [List.cons_append, List.dropWhile_cons, if_pos hw.1]
    exact ih hw.2

theorem allWs_reverse (l : List Char) (h : l.all isWs = true) : l.reverse.all isWs = true := by
  simp only [List.all_eq_true, List.mem_reverse] at h ⊢
  exact h

theorem trimWs_append_allWs_left (w z : List Char) (hw : w.all isWs = true) :
    trimWs (w ++ z) = trimWs z := by
  unfold trimWs
  rw [dropWhile_isWs_append_allWs w z hw]

theorem trimWs_append_allWs_right (z w : List Char) (hw : w.all isWs = true) :
    trimWs (z ++ w) = trimWs z := by
  rcases hz : z.dropWhile isWs with _ | ⟨c, r⟩
  · have hzws : z.all isWs = true := by
      rw [List.all_eq_true]
      intro x hx
      by_contra hxw
      have := List.dropWhile_eq_nil_iff.mp hz x hx
      exact hxw this
    rw [trimWs_allWs z hzws]
    refine trimWs_allWs _ ?_
    simp only [List.all_append, Bool.and_eq_true]
    exact ⟨hzws, hw⟩
  · have hsplit : (z ++ w).dropWhile isWs = z.dropWhile isWs ++ w := by
      induction z with
      | nil => simp at hz
      | cons x xs ih =>
        rw [List.cons_append, List.dropWhile_cons, List.dropWhile_cons]
        by_cases hx : isWs x = true
        · rw [if_pos hx, if_pos hx]
          rw [List.dropWhile_cons, if_pos hx] at hz
          exact ih hz
        · rw [if_neg hx, if_neg hx, List.cons_append]
    unfold trimWs
    rw [hsplit, List.reverse_append,
      dropWhile_isWs_append_allWs w.reverse _ (allWs_reverse w hw)]

/-- C10: the sanitizer deletes leading and trailing whitespace of the stem
outright (no dash replaces it), and a filename whose stem is entirely
whitespace sanitizes to exactly its extension, which starts with a dot when
nonempty. -/
theorem c10_strip_whitespace :
    (∀ n : List Char, (stemSuffix n).1.all isWs = true →
      safe_audio_name n = (stemSuffix n).2 ∧
        ((stemSuffix n).2 = [] ∨ (stemSuffix n).2.head? = some '.')) ∧
    (∀ w s w' : List Char, w.all isWs = true → w'.all isWs = true →
      stemClean (w ++ s ++ w') = stemClean s) := by
  constructor
  · intro n hws
    constructor
    · show stemClean (stemSuffix n).1 ++ (stemSuffix n).2 = (stemSuffix n).2
      rw [stemClean, trimWs_allWs _ hws]
      rfl
    · rcases stemSuffix_suffix_shape n with hE | ⟨t, hE, _, _⟩
      · exact Or.inl hE
      · right
        rw [hE]
        rfl
  · intro w s w' hw hw'
    unfold stemClean
    rw [List.append_assoc, trimWs_append_allWs_left w _ hw,
      trimWs_append_allWs_right s w' hw']

theorem c10_strip_whitespace_witness :
    ((stemSuffix ("   .wav").data).1.all isWs = true ∧
      safe_audio_name ("   .wav").data = (stemSuffix ("   .wav").data).2 ∧
      ((stemSuffix ("   .wav").data).2 = [] ∨
        (stemSuffix ("   .wav").data).2.head? = some '.')) ∧
    stemClean ((" ").data ++ ("a b").data ++ (" ").data) = stemClean ("a b").data :=
  ⟨⟨by decide, c10_strip_whitespace.1 ("   .wav").data (by decide)⟩,
    c10_strip_whitespace.2 (" ").data ("a b").data (" ").data (by decide) (by decide)⟩

/-- Python `str.lower` restricted to ASCII letters (the allowed extensions the
program compares against are ASCII). -/
def toLowerChar (c : Char) : Char :=
  if 65 ≤ c.toNat ∧ c.toNat ≤ 90 then Char.ofNat (c.toNat + 32) else c

def lowerStr (s : List Char) : List Char := s.map toLowerChar

/-- Constant `ALLOW_EXTS` from src/server.py line 12 / src/strudel.py line 12. -/
def ALLOW_EXTS : List (List Char) := [(".wav").data, (".flac").data, (".ogg").data]

/-- A file qualifies when its suffix, lowercased, is in the allowed set
(`src.suffix.lower() in ALLOW_EXTS`). -/
def allowedFile (f : List Char) : Bool := decide (lowerStr (stemSuffix f).2 ∈ ALLOW_EXTS)

/-- Decimal digits of `n` (big-endian, as produced by Python `str(i)`),
computed with enough structural fuel. -/
def decimalAux : Nat → Nat → List Char
  | 0, _ => []
  | _ + 1, 0 => []
  | f + 1, n + 1 => decimalAux f ((n + 1) / 10) ++ [Char.ofNat (48 + (n + 1) % 10)]

def decimalRepr (n : Nat) : List Char := if n = 0 then [Char.ofNat 48] else decimalAux n n

/-- Reading decimal digits back; a retraction of `decimalRepr` used to prove
injectivity of the `-N` suffixes. -/
def digitsVal (l : List Char) : Nat := l.foldl (fun a c => a * 10 + (c.toNat - 48)) 0

theorem digitsVal_concat (xs : List Char) (c : Char) :
    digitsVal (xs ++ [c]) = digitsVal xs * 10 + (c.toNat - 48) := by
  unfold digitsVal
  rw [List.foldl_append]
  rfl

theorem decimalAux_val (f : Nat) : ∀ n, n ≤ f → digitsVal (decimalAux f n) = n := by
  induction f with
  | zero =>
    intro n h
    match n, h with
    | 0, _ => rfl
  | succ f ih =>
    intro n h
    match n with
    | 0 => rfl
    | m + 1 =>
      rw [decimalAux, digitsVal_concat]
      have hdiv : (m + 1) / 10 ≤ f := by
        have := Nat.div_lt_self (Nat.succ_pos m) (show 1 < 10 by omega)
        omega
      rw [ih _ hdiv]
      have hlt : (m + 1) % 10 < 10 := Nat.mod_lt _ (by omega)
      have hchar : (Char.ofNat (48 + (m + 1) % 10)).toNat - 48 = (m + 1) % 10 := by
        set r := (m + 1) % 10 with hr
        interval_cases r <;> decide
      rw [hchar]
      omega

theorem decimalRepr_val (n : Nat) : digitsVal (decimalRepr n) = n := by
  unfold decimalRepr
  by_cases h : n = 0
  · rw [if_pos h, h]; decide
  · rw [if_neg h]
    exact decimalAux_val n n le_rfl

theorem decimalRepr_inj (i j : Nat) (h : decimalRepr i = decimalRepr j) : i = j := by
  have := congrArg digitsVal h
  rwa [decimalRepr_val, decimalRepr_val] at this

/-- Collision candidate `f"{base}-{i}{ext}"` from src/server.py line 40. -/
def candName (b e : List Char) (i : Nat) : List Char := b ++ '-' :: (decimalRepr i ++ e)

theorem candName_inj (b e : List Char) (i j : Nat) (h : candName b e i = candName b e j) :
    i = j := by
  unfold candName at h
  have h1 := List.append_cancel_left h
  have h2 : decimalRepr i ++ e = decimalRepr j ++ e := by
    injection h1
  exact decimalRepr_inj i j (List.append_cancel_right h2)

/-- The `while True: i += 1` search from src/server.py lines 38-44, with fuel
`st.length + 1` (enough by pigeonhole, since the candidates are distinct). -/
def searchFree (b e : List Char) (st : List (List Char)) : Nat → Nat → Option (List Char)
  | 0, _ => none
  | f + 1, i =>
    if candName b e i ∈ st then searchFree b e st f (i + 1) else some (candName b e i)

def firstFreeName (b e : List Char) (st : List (List Char)) : List Char :=
  (searchFree b e st (st.length + 1) 1).getD []

theorem exists_free_cand (b e : List Char) (st : List (List Char)) :
    ∃ k, k < st.length + 1 ∧ candName b e (1 + k) ∉ st := by
  by_contra hcon
  push_neg at hcon
  have hinj : Function.Injective (fun k : Nat => candName b e (1 + k)) := by
    intro x y hxy
    have := candName_inj b e (1 + x) (1 + y) hxy
    omega
  have hsub : (Finset.range (st.length + 1)).image (fun k => candName b e (1 + k))
      ⊆ st.toFinset := by
    intro x hx
    rw [Finset.mem_image] at hx
    obtain ⟨k, hk, rfl⟩ := hx
    rw [List.mem_toFinset]
    exact hcon k (Finset.mem_range.mp hk)
  have hcard := Finset.card_le_card hsub
  rw [Finset.card_image_of_injective _ hinj, Finset.card_range] at hcard
  have hle : st.toFinset.card ≤ st.length := st.toFinset_card_le
  omega

theorem searchFree_spec (b e : List Char) (st : List (List Char)) :
    ∀ f i, (∃ k, k < f ∧ candName b e (i + k) ∉ st) →
      ∃ k, k < f ∧ searchFree b e st f i = some (candName b e (i + k)) ∧
        candName b e (i + k) ∉ st ∧ ∀ j, j < k → candName b e (i + j) ∈ st := by
  intro f
  induction f with
  | zero =>
    intro i h
    obtain ⟨k, hk, _⟩ := h
    omega
  | succ f ih =>
    intro i h
    by_cases hc : candName b e i ∈ st
    · obtain ⟨k, hk, hfree⟩ := h
      have hk0 : k ≠ 0 := by
        rintro rfl
        rw [Nat.add_zero] at hfree
        exact hfree hc
      obtain ⟨k', rfl⟩ := Nat.exists_eq_succ_of_ne_zero hk0
      have hh : ∃ k2, k2 < f ∧ candName b e ((i + 1) + k2) ∉ st := by
        refine ⟨k', by omega, ?_⟩
        have he : (i + 1) + k' = i + (k' + 1) := by omega
        rw [he]
        exact hfree
      obtain ⟨k2, hk2, hs, hfree2, hleast⟩ := ih (i + 1) hh
      refine ⟨k2 + 1, by omega, ?_, ?_, ?_⟩
      · rw [searchFree, if_pos hc]
        have he : i + (k2 + 1) = (i + 1) + k2 := by omega
        rw [he]
        exact hs
      · have he : i + (k2 + 1) = (i + 1) + k2 := by omega
        rw [he]
        exact hfree2
      · intro j hj
        match j with
        | 0 =>
          rw [Nat.add_zero]
          exact hc
        | j' + 1 =>
          have he : i + (j' + 1) = (i + 1) + j' := by omega
          rw [he]
          exact hleast j' (by omega)
    · refine ⟨0, by omega, ?_, ?_, ?_⟩
      · rw [searchFree, if_neg hc, Nat.add_zero]
      · rw [Nat.add_zero]
        exact hc
      · intro j hj
        omega

theorem firstFreeName_spec (b e : List Char) (st : List (List Char)) :
    ∃ i, 1 ≤ i ∧ firstFreeName b e st = candName b e i ∧ candName b e i ∉ st ∧
      ∀ j, 1 ≤ j → j < i → candName b e j ∈ st := by
  obtain ⟨k, hk, hfree⟩ := exists_free_cand b e st
  obtain ⟨k2, hk2, hs, hfree2, hleast⟩ :=
    searchFree_spec b e st (st.length + 1) 1 ⟨k, hk, hfree⟩
  refine ⟨1 + k2, by omega, ?_, hfree2, ?_⟩
  · unfold firstFreeName
    rw [hs]
    rfl
  · intro j h1 h2
    have he : j = 1 + (j - 1) := by omega
    rw [he]
    exact hleast (j - 1) (by omega)

theorem firstFreeName_not_mem (b e : List Char) (st : List (List Char)) :
    firstFreeName b e st ∉ st := by
  obtain ⟨i, _, heq, hfree, _⟩ := firstFreeName_spec b e st
  rw [heq]
  exact hfree

/-- One iteration of the inner loop of `rename_files` (src/server.py lines
27-46) on a single directory: `st` is the current set of names in the
directory, `f` the snapshot entry being processed. Skip non-audio suffixes,
skip already-clean names, otherwise rename `f` to its sanitized target, or to
the first free `-N` candidate if the target exists. -/
def renameStep (st : List (List Char)) (f : List Char) : List (List Char) :=
  if allowedFile f = true then
    if safe_audio_name f = f then st
    else
      st.erase f ++
        [if safe_audio_name f ∈ st then
            firstFreeName (stemSuffix (safe_audio_name f)).1
              (stemSuffix (safe_audio_name f)).2 st
          else safe_audio_name f]
  else st

/-- Function `rename_files` restricted to one directory: `os.walk` iterates over the
snapshot listing `files` while `exists()` consults the live directory state,
which starts out equal to the snapshot. Renames never cross directories, so
one directory is fully general. -/
def rename_files (files : List (List Char)) : List (List Char) :=
  files.foldl renameStep files

example :
    rename_files [("snare A.wav").data, ("snare-A.wav").data]
      = [("snare-A.wav").data, ("snare-A-1.wav").data] := by decide

theorem renameStep_invariant (st : List (List Char)) (f : List Char)
    (hnd : st.Nodup) (hmem : f ∈ st) :
    (renameStep st f).Nodup ∧ (renameStep st f).length = st.length ∧
      ∀ g, g ∈ st → g ≠ f → g ∈ renameStep st f := by
  unfold renameStep
  by_cases ha : allowedFile f = true
  · rw [if_pos ha]
    by_cases hsf : safe_audio_name f = f
    · rw [if_pos hsf]
      exact ⟨hnd, rfl, fun g hg _ => hg⟩
    · rw [if_neg hsf]
      have hdstnot :
          (if safe_audio_name f ∈ st then
              firstFreeName (stemSuffix (safe_audio_name f)).1
                (stemSuffix (safe_audio_name f)).2 st
            else safe_audio_name f) ∉ st := by
        by_cases hmem2 : safe_audio_name f ∈ st
        · rw [if_pos hmem2]
          exact firstFreeName_not_mem _ _ st
        · rw [if_neg hmem2]
          exact hmem2
      refine ⟨?_, ?_, ?_⟩
      · rw [List.nodup_append]
        refine ⟨hnd.erase f, List.nodup_singleton _, ?_⟩
        intro a ha1 ha2
        rw [List.mem_singleton] at ha2
        subst ha2
        exact hdstnot (List.mem_of_mem_erase ha1)
      · rw [List.length_append, List.length_erase_of_mem hmem, List.length_singleton]
        have : 0 < st.length := List.length_pos.mpr (List.ne_nil_of_mem hmem)
        omega
      · intro g hg hgne
        exact List.mem_append_left _ ((List.mem_erase_of_ne hgne).mpr hg)
  · rw [if_neg ha]
    exact ⟨hnd, rfl, fun g hg _ => hg⟩

theorem rename_fold_invariant (snapshot : List (List Char)) :
    ∀ st, st.Nodup → snapshot.Nodup → (∀ f ∈ snapshot, f ∈ st) →
      (snapshot.foldl renameStep st).Nodup ∧
        (snapshot.foldl renameStep st).length = st.length := by
  induction snapshot with
  | nil =>
    intro st h _ _
    exact ⟨h, rfl⟩
  | cons f fs ih =>
    intro st hnd hsnd hmem
    rw [List.foldl_cons]
    have hf : f ∈ st := hmem f (List.mem_cons_self f fs)
    obtain ⟨h1, h2, h3⟩ := renameStep_invariant st f hnd hf
    have hsnd' : fs.Nodup := (List.nodup_cons.mp hsnd).2
    have hfnotfs : f ∉ fs := (List.nodup_cons.mp hsnd).1
    have hmem' : ∀ g ∈ fs, g ∈ renameStep st f := fun g hg =>
      h3 g (hmem g (List.mem_cons_of_mem f hg)) (fun he => hfnotfs (he ▸ hg))
    obtain ⟨hA, hB⟩ := ih (renameStep st f) h1 hsnd' hmem'
    exact ⟨hA, hB.trans h2⟩

/-- C2: for every directory listing without duplicate names (in particular one
containing two distinct files that sanitize to the same target), one rename
pass yields pairwise-distinct final names and loses no file (the final name
set has the cardinality of the original one); and the collision resolver
returns `base-N ext` for the first `N ≥ 1` whose candidate is absent from the
live directory state, which reflects files already renamed in the same pass. -/
theorem c2_rename_pass_cardinality :
    (∀ files : List (List Char), files.Nodup →
      (rename_files files).Nodup ∧ (rename_files files).length = files.length) ∧
    (∀ b e st, ∃ i, 1 ≤ i ∧ firstFreeName b e st = candName b e i ∧
      candName b e i ∉ st ∧ ∀ j, 1 ≤ j → j < i → candName b e j ∈ st) := by
  constructor
  · intro files h
    exact rename_fold_invariant files files h h (fun _ hf => hf)
  · intro b e st
    exact firstFreeName_spec b e st

theorem c2_rename_pass_cardinality_witness :
    (("snare A.wav").data ≠ ("snare-A.wav").data ∧
      safe_audio_name ("snare A.wav").data = safe_audio_name ("snare-A.wav").data) ∧
    ([("snare A.wav").data, ("snare-A.wav").data] : List (List Char)).Nodup ∧
    (rename_files [("snare A.wav").data, ("snare-A.wav").data]).Nodup ∧
    (rename_files [("snare A.wav").data, ("snare-A.wav").data]).length
      = [("snare A.wav").data, ("snare-A.wav").data].length :=
  ⟨⟨by decide, by decide⟩, by decide,
    (c2_rename_pass_cardinality.1 [("snare A.wav").data, ("snare-A.wav").data]
        (by decide)).1,
    (c2_rename_pass_cardinality.1 [("snare A.wav").data, ("snare-A.wav").data]
        (by decide)).2⟩

/-- Python string `<=`: lexicographic by code point, a proper prefix sorting
first. -/
def lexLe : List Char → List Char → Bool
  | [], _ => true
  | _ :: _, [] => false
  | a :: as, b :: bs => if a.toNat = b.toNat then lexLe as bs else decide (a.toNat < b.toNat)

def sortedLe : List (List Char) → Bool
  | [] => true
  | [_] => true
  | a :: b :: t => lexLe a b && sortedLe (b :: t)

def insertLe (x : List Char) : List (List Char) → List (List Char)
  | [] => [x]
  | y :: ys => if lexLe x y = true then x :: y :: ys else y :: insertLe x ys

/-- Model of Python `list.sort()` on strings: `lexLe` is a total order whose
ties are equal strings, so any sorting algorithm (timsort included) produces
this insertion sort's output. -/
def sortLe : List (List Char) → List (List Char)
  | [] => []
  | x :: xs => insertLe x (sortLe xs)

theorem lexLe_total (a : List Char) : ∀ b, lexLe a b = true ∨ lexLe b a = true := by
  induction a with
  | nil =>
    intro b
    left
    rfl
  | cons x xs ih =>
    intro b
    cases b with
    | nil =>
      right
      rfl
    | cons y ys =>
      by_cases h : x.toNat = y.toNat
      · rcases ih ys with hh | hh
        · left
          rw [lexLe, if_pos h]
          exact hh
        · right
          rw [lexLe, if_pos h.symm]
          exact hh
      · by_cases hlt : x.toNat < y.toNat
        · left
          rw [lexLe, if_neg h]
          exact decide_eq_true hlt
        · right
          rw [lexLe, if_neg (fun he => h he.symm)]
          exact decide_eq_true (by omega)

theorem sorted_insertLe (x : List Char) (l : List (List Char)) (h : sortedLe l = true) :
    sortedLe (insertLe x l) = true := by
  induction l with
  | nil => rfl
  | cons y ys ih =>
    by_cases hxy : lexLe x y = true
    · rw [insertLe, if_pos hxy]
      show (lexLe x y && sortedLe (y :: ys)) = true
      rw [hxy, h]
      rfl
    · rw [insertLe, if_neg hxy]
      have hyx : lexLe y x = true := by
        rcases lexLe_total x y with hh | hh
        · exact absurd hh hxy
        · exact hh
      cases ys with
      | nil =>
        show (lexLe y x && sortedLe [x]) = true
        rw [hyx]
        rfl
      | cons z zs =>
        rw [sortedLe, Bool.and_eq_true] at h
        have hyz : lexLe y z = true := h.1
        have hs : sortedLe (z :: zs) = true := h.2
        have hrec : sortedLe (insertLe x (z :: zs)) = true := ih hs
        by_cases hxz : lexLe x z = true
        · rw [insertLe, if_pos hxz]
          show (lexLe y x && sortedLe (x :: z :: zs)) = true
          rw [hyx]
          show sortedLe (x :: z :: zs) = true
          show (lexLe x z && sortedLe (z :: zs)) = true
          rw [hxz, hs]
          rfl
        · rw [insertLe, if_neg hxz]
          rw [insertLe, if_neg hxz] at hrec
          show (lexLe y z && sortedLe (z :: insertLe x zs)) = true
          rw [hyz, hrec]
          rfl

theorem sortedLe_sortLe (l : List (List Char)) : sortedLe (sortLe l) = true := by
  induction l with
  | nil => rfl
  | cons x xs ih => exact sorted_insertLe x (sortLe xs) ih

theorem mem_insertLe (x y : List Char) (l : List (List Char)) :
    y ∈ insertLe x l ↔ y = x ∨ y ∈ l := by
  induction l with
  | nil => simp [insertLe]
  | cons z zs ih =>
    by_cases hxz : lexLe x z = true
    · rw [insertLe, if_pos hxz]
      simp [List.mem_cons]
    · rw [insertLe, if_neg hxz]
      simp only [List.mem_cons, ih]
      tauto

theorem mem_sortLe (x : List Char) (l : List (List Char)) : x ∈ sortLe l ↔ x ∈ l := by
  induction l with
  | nil => simp [sortLe]
  | cons y ys ih =>
    rw [sortLe, mem_insertLe]
    simp only [List.mem_cons, ih]

/-- One directory yielded by `os.walk`: its path relative to `ROOT` as
segments, and the plain files it contains. The list order of a walk models
the unspecified `os.scandir` order. -/
structure WalkEntry where
  relDir : List (List Char)
  files : List (List Char)
deriving DecidableEq

/-- Constant `IGNORE_DIRS` from src/server.py line 11 (src/strudel.py line 10 adds
`"examples"`; none of the claims depends on the set's contents). -/
def IGNORE_DIRS : List (List Char) :=
  [(".git").data, ("node_modules").data, ("__pycache__").data, (".venv").data]

/-- Test `d.startswith(".") or d in IGNORE_DIRS`. -/
def hiddenOrIgnored (d : List Char) : Bool :=
  decide (d.head? = some '.') || decide (d ∈ IGNORE_DIRS)

/-- A directory survives the `dirs[:] = [d for d in dirs if ...]` pruning of
the topdown walk iff every component of its relative path is non-hidden and
not ignored. -/
def visitedEntry (e : WalkEntry) : Bool :=
  e.relDir.all (fun d => !hiddenOrIgnored d)

def prunedWalk (fs : List WalkEntry) : List WalkEntry := fs.filter visitedEntry

/-- POSIX join of path segments. -/
def joinSegs : List (List Char) → List Char
  | [] => []
  | [s] => s
  | s :: t :: r => s ++ '/' :: joinSegs (t :: r)

/-- Expression `"/" + p.relative_to(ROOT).as_posix()` for a file `f` in directory
`relDir`. -/
def renderItem (relDir : List (List Char)) (f : List Char) : List Char :=
  '/' :: joinSegs (relDir ++ [f])

/-- The `items` list built for one directory (src/server.py lines 62-67). -/
def dirItems (e : WalkEntry) : List (List Char) :=
  (e.files.filter (fun f => allowedFile f)).map (renderItem e.relDir)

/-- Python `data.setdefault(name, []).extend(items)`: append to the existing
key's list keeping its dict position, or append a new key at the end. -/
def extendGroup : List (List Char × List (List Char)) → List Char →
    List (List Char) → List (List Char × List (List Char))
  | [], k, items => [(k, items)]
  | (k', vs) :: rest, k, items =>
    if k' = k then (k', vs ++ items) :: rest
    else (k', vs) :: extendGroup rest k items

/-- Processing one walked directory in `generate_json` (src/server.py lines
54-70): skip the root (`rel_dir == "."`), skip hidden/ignored base names,
build the allowed-extension items, sort them, and setdefault-extend. -/
def genStep (gs : List (List Char × List (List Char))) (e : WalkEntry) :
    List (List Char × List (List Char)) :=
  match e.relDir.getLast? with
  | none => gs
  | some n =>
    if hiddenOrIgnored n = true then gs
    else if dirItems e = [] then gs
    else extendGroup gs n (sortLe (dirItems e))

/-- The group part of the catalog built by `generate_json` (src/server.py
lines 48-70, src/strudel.py lines 62-91); the reserved `_base` key is handled
separately by the serializer below. -/
def generate_json_groups (fs : List WalkEntry) : List (List Char × List (List Char)) :=
  (prunedWalk fs).foldl genStep []

/-- Association lookup with Python dict semantics on insertion-ordered pairs. -/
def assocLookup {α : Type} (k : List Char) : List (List Char × α) → Option α
  | [] => none
  | (k', v) :: r => if k' = k then some v else assocLookup k r

/-- Two directories named `kicks` under different parents, walked in an order
that puts the lexicographically larger parent first. -/
def exWalkC3 : List WalkEntry :=
  [⟨[], []⟩,
   ⟨[("z").data], []⟩,
   ⟨[("z").data, ("kicks").data], [("a.wav").data]⟩,
   ⟨[("a").data], []⟩,
   ⟨[("a").data, ("kicks").data], [("b.wav").data]⟩]

/-- C3 counterexample: the `kicks` group accumulated from two directories is
the concatenation of two sorted chunks in walk order and is not itself
sorted. -/
theorem c3_group_sorted_counterexample :
    assocLookup ("kicks").data (generate_json_groups exWalkC3)
      = some [("/z/kicks/a.wav").data, ("/a/kicks/b.wav").data] ∧
    sortedLe [("/z/kicks/a.wav").data, ("/a/kicks/b.wav").data] = false := by
  exact ⟨by decide, by decide⟩

theorem lookup_extendGroup (gs : List (List Char × List (List Char)))
    (k n : List Char) (its : List (List Char)) :
    assocLookup k (extendGroup gs n its)
      = if k = n then some ((assocLookup k gs).getD [] ++ its)
        else assocLookup k gs := by
  induction gs with
  | nil =>
    by_cases hkn : k = n
    · subst hkn
      simp [extendGroup, assocLookup]
    · rw [if_neg hkn]
      have hnk : ¬ n = k := fun he => hkn he.symm
      simp [extendGroup, assocLookup, hnk]
  | cons p rest ih =>
    obtain ⟨k', vs⟩ := p
    by_cases hk'n : k' = n
    · rw [extendGroup, if_pos hk'n]
      by_cases hk'k : k' = k
      · have hkn : k = n := hk'k ▸ hk'n
        rw [if_pos hkn, assocLookup, if_pos hk'k, assocLookup, if_pos hk'k]
        rfl
      · have hkn : ¬ k = n := by
          intro he
          exact hk'k (hk'n.trans he.symm)
        rw [if_neg hkn, assocLookup, if_neg hk'k, assocLookup, if_neg hk'k]
    · rw [extendGroup, if_neg hk'n]
      by_cases hk'k : k' = k
      · have hkn : ¬ k = n := by
          intro he
          exact hk'n (hk'k.trans he)
        rw [if_neg hkn, assocLookup, if_pos hk'k, assocLookup, if_pos hk'k]
      · rw [assocLookup, if_neg hk'k, ih, assocLookup, if_neg hk'k]

/-- The per-directory contribution of one walked entry to group `k`: the
sorted item list of the directory when it is a non-root directory whose base
name is `k`, passes the hidden/ignored re-check, and holds at least one
allowed file; `none` otherwise. -/
def chunkOf (k : List Char) (e : WalkEntry) : Option (List (List Char)) :=
  match e.relDir.getLast? with
  | none => none
  | some n =>
    if hiddenOrIgnored n = true then none
    else if dirItems e = [] then none
    else if n = k then some (sortLe (dirItems e)) else none

/-- All per-directory contributions to group `k`, in walk order. -/
def groupChunks (fs : List WalkEntry) (k : List Char) : List (List (List Char)) :=
  (prunedWalk fs).filterMap (chunkOf k)

theorem lookup_genStep_chunk (gs : List (List Char × List (List Char)))
    (e : WalkEntry) (k : List Char) :
    (assocLookup k (genStep gs e)).getD []
      = (assocLookup k gs).getD [] ++ (chunkOf k e).getD [] := by
  unfold genStep chunkOf
  split
  · simp
  · rename_i n hL
    by_cases hh : hiddenOrIgnored n = true
    · rw [if_pos hh, if_pos hh]
      simp
    · rw [if_neg hh, if_neg hh]
      by_cases hit : dirItems e = []
      · rw [if_pos hit, if_pos hit]
        simp
      · rw [if_neg hit, if_neg hit, lookup_extendGroup]
        by_cases hnk : n = k
        · rw [if_pos hnk, if_pos (hnk.symm)]
          simp
        · have hkn : ¬ k = n := fun he => hnk he.symm
          rw [if_neg hnk, if_neg hkn]
          simp

theorem fold_lookup_chunks (es : List WalkEntry) :
    ∀ gs k, (assocLookup k (es.foldl genStep gs)).getD []
      = (assocLookup k gs).getD [] ++ (es.filterMap (chunkOf k)).flatten := by
  induction es with
  | nil =>
    intro gs k
    simp
  | cons e es ih =>
    intro gs k
    rw [List.foldl_cons, ih (genStep gs e) k, lookup_genStep_chunk, List.filterMap_cons]
    cases hc : chunkOf k e with
    | none => simp
    | some c => simp [List.append_assoc]

theorem generate_group_eq_chunks (fs : List WalkEntry) (k : List Char)
    (l : List (List Char)) (h : assocLookup k (generate_json_groups fs) = some l) :
    l = (groupChunks fs k).flatten := by
  have hf := fold_lookup_chunks (prunedWalk fs) [] k
  rw [generate_json_groups] at h
  rw [h] at hf
  simpa [groupChunks] using hf

theorem groupChunks_sorted (fs : List WalkEntry) (k : List Char) :
    ∀ c ∈ groupChunks fs k, sortedLe c = true := by
  intro c hc
  rw [groupChunks, List.mem_filterMap] at hc
  obtain ⟨e, _, hch⟩ := hc
  unfold chunkOf at hch
  split at hch
  · cases hch
  · split_ifs at hch
    injection hch with hch
    rw [← hch]
    exact sortedLe_sortLe _

/-- C3 (amended): in the catalog built by `generate_json`, the list under
every group key equals the concatenation, in walk order, of that group's
per-directory contributions, where each contribution is the directory's
allowed-file items sorted ascending; hence every contribution is sorted, and
a group fed by exactly one directory is sorted as a whole — but a group
accumulated from several directories is only chunk-wise sorted. -/
theorem c3_group_chunks_sorted :
    (∀ (fs : List WalkEntry) (k : List Char) (l : List (List Char)),
      assocLookup k (generate_json_groups fs) = some l →
        l = (groupChunks fs k).flatten) ∧
    (∀ (fs : List WalkEntry) (k : List Char),
      ∀ c ∈ groupChunks fs k, sortedLe c = true) ∧
    (∀ (fs : List WalkEntry) (k : List Char) (l : List (List Char)),
      assocLookup k (generate_json_groups fs) = some l →
        (groupChunks fs k).length = 1 → sortedLe l = true) := by
  refine ⟨generate_group_eq_chunks, groupChunks_sorted, ?_⟩
  intro fs k l h hlen
  have h1 := generate_group_eq_chunks fs k l h
  rcases hch : groupChunks fs k with _ | ⟨c, rest⟩
  · rw [hch] at hlen
    simp at hlen
  · rcases rest with _ | ⟨c2, r2⟩
    · rw [hch] at h1
      have hc : sortedLe c = true := by
        refine groupChunks_sorted fs k c ?_
        rw [hch]
        exact List.mem_cons_self c []
      rw [h1]
      simpa using hc
    · rw [hch] at hlen
      simp at hlen

theorem c3_group_chunks_sorted_witness :
    ([("/z/kicks/a.wav").data, ("/a/kicks/b.wav").data]
        = (groupChunks exWalkC3 ("kicks").data).flatten) ∧
    sortedLe [("/z/kicks/a.wav").data] = true ∧
    sortedLe [("/kicks/a.wav").data] = true :=
  ⟨c3_group_chunks_sorted.1 exWalkC3 ("kicks").data
      [("/z/kicks/a.wav").data, ("/a/kicks/b.wav").data] (by decide),
   c3_group_chunks_sorted.2.1 exWalkC3 ("kicks").data
      [("/z/kicks/a.wav").data] (by decide),
   c3_group_chunks_sorted.2.2 [⟨[], []⟩, ⟨[("kicks").data], [("a.wav").data]⟩]
      ("kicks").data [("/kicks/a.wav").data] (by decide) (by decide)⟩

/-- A walked directory contributes a group `k`: it is a non-root directory
whose base name is `k`, the base name passes the hidden/ignored re-check, and
some file in it has an allowed extension. -/
def contributes (e : WalkEntry) (k : List Char) : Prop :=
  e.relDir.getLast? = some k ∧ hiddenOrIgnored k = false ∧
    ∃ f ∈ e.files, allowedFile f = true

theorem dirItems_eq_nil_iff (e : WalkEntry) :
    dirItems e = [] ↔ ¬ ∃ f ∈ e.files, allowedFile f = true := by
  unfold dirItems
  rw [List.map_eq_nil_iff, List.filter_eq_nil_iff]
  constructor
  · rintro h ⟨f, hf, ha⟩
    exact absurd ha (by simpa using h f hf)
  · intro h f hf
    simp only [Bool.not_eq_true]
    by_contra hc
    simp only [Bool.not_eq_false] at hc
    exact h ⟨f, hf, hc⟩

theorem lookup_isSome_extendGroup (gs : List (List Char × List (List Char)))
    (k n : List Char) (its : List (List Char)) :
    (assocLookup k (extendGroup gs n its)).isSome = true ↔
      k = n ∨ (assocLookup k gs).isSome = true := by
  rw [lookup_extendGroup]
  by_cases hkn : k = n
  · rw [if_pos hkn]
    simp [hkn]
  · rw [if_neg hkn]
    simp [hkn]

theorem genStep_keys (gs : List (List Char × List (List Char))) (e : WalkEntry)
    (k : List Char) :
    (assocLookup k (genStep gs e)).isSome = true ↔
      (assocLookup k gs).isSome = true ∨ contributes e k := by
  unfold genStep
  cases hL : e.relDir.getLast? with
  | none =>
    simp only []
    constructor
    · exact Or.inl
    · rintro (h | ⟨hk, _, _⟩)
      · exact h
      · rw [hL] at hk
        cases hk
  | some n =>
    simp only []
    by_cases hh : hiddenOrIgnored n = true
    · rw [if_pos hh]
      constructor
      · exact Or.inl
      · rintro (h | ⟨hk, hhid, _⟩)
        · exact h
        · rw [hL] at hk
          injection hk with hk
          rw [← hk] at hhid
          rw [hh] at hhid
          cases hhid
    · rw [if_neg hh]
      by_cases hit : dirItems e = []
      · rw [if_pos hit]
        constructor
        · exact Or.inl
        · rintro (h | ⟨_, _, hf⟩)
          · exact h
          · exact absurd hf ((dirItems_eq_nil_iff e).mp hit)
      · rw [if_neg hit]
        rw [lookup_isSome_extendGroup]
        constructor
        · rintro (hkn | h)
          · right
            refine ⟨hkn ▸ hL, ?_, ?_⟩
            · rw [hkn]
              simpa using hh
            · by_contra hc
              exact absurd ((dirItems_eq_nil_iff e).mpr hc) hit
          · exact Or.inl h
        · rintro (h | ⟨hk, _, _⟩)
          · exact Or.inr h
          · rw [hL] at hk
            injection hk with hk
            exact Or.inl hk.symm

theorem generate_fold_keys (es : List WalkEntry) :
    ∀ gs k, (assocLookup k (es.foldl genStep gs)).isSome = true ↔
      (assocLookup k gs).isSome = true ∨ ∃ e ∈ es, contributes e k := by
  induction es with
  | nil =>
    intro gs k
    simp
  | cons e es ih =>
    intro gs k
    rw [List.foldl_cons, ih (genStep gs e) k, genStep_keys]
    constructor
    · rintro ((h | h) | ⟨e2, he2, hc⟩)
      · exact Or.inl h
      · exact Or.inr ⟨e, List.mem_cons_self e es, h⟩
      · exact Or.inr ⟨e2, List.mem_cons_of_mem e he2, hc⟩
    · rintro (h | ⟨e2, he2, hc⟩)
      · exact Or.inl (Or.inl h)
      · rcases List.mem_cons.mp he2 with he | he
        · exact Or.inl (Or.inr (he ▸ hc))
        · exact Or.inr ⟨e2, he, hc⟩

theorem generate_fold_items (es : List WalkEntry) :
    ∀ gs, (∀ k l, assocLookup k gs = some l →
        ∀ it ∈ l, ∃ ds f, it = renderItem ds f ∧ ds.getLast? = some k ∧
          allowedFile f = true) →
      ∀ k l, assocLookup k (es.foldl genStep gs) = some l →
        ∀ it ∈ l, ∃ ds f, it = renderItem ds f ∧ ds.getLast? = some k ∧
          allowedFile f = true := by
  induction es with
  | nil =>
    intro gs hgs k l hl
    exact hgs k l hl
  | cons e es ih =>
    intro gs hgs k l hl
    rw [List.foldl_cons] at hl
    refine ih (genStep gs e) ?_ k l hl
    intro k2 l2 hl2 it hit
    unfold genStep at hl2
    split at hl2
    · exact hgs k2 l2 hl2 it hit
    · rename_i n hL
      by_cases hh : hiddenOrIgnored n = true
      · rw [if_pos hh] at hl2
        exact hgs k2 l2 hl2 it hit
      · rw [if_neg hh] at hl2
        by_cases hempty : dirItems e = []
        · rw [if_pos hempty] at hl2
          exact hgs k2 l2 hl2 it hit
        · rw [if_neg hempty, lookup_extendGroup] at hl2
          by_cases hk2n : k2 = n
          · rw [if_pos hk2n] at hl2
            have hitems : ∀ x ∈ sortLe (dirItems e),
                ∃ ds f, x = renderItem ds f ∧ ds.getLast? = some k2 ∧
                  allowedFile f = true := by
              intro x hx
              rw [mem_sortLe] at hx
              unfold dirItems at hx
              rw [List.mem_map] at hx
              obtain ⟨f, hf, rfl⟩ := hx
              rw [List.mem_filter] at hf
              exact ⟨e.relDir, f, rfl, hk2n ▸ hL, hf.2⟩
            cases hprev : assocLookup k2 gs with
            | none =>
              rw [hprev] at hl2
              simp only [Option.getD_none, List.nil_append, Option.some.injEq] at hl2
              rw [← hl2] at hit
              exact hitems it hit
            | some v =>
              rw [hprev] at hl2
              simp only [Option.getD_some, Option.some.injEq] at hl2
              rw [← hl2] at hit
              rcases List.mem_append.mp hit with hit | hit
              · exact hgs k2 v hprev it hit
              · exact hitems it hit
          · rw [if_neg hk2n] at hl2
            exact hgs k2 l2 hl2 it hit

/-- A qualifying file inside a hidden directory: `.git/kicks/a.wav`. The walk
prunes `.git`, so `kicks` is never visited even though it is itself neither
hidden nor ignored and contains a qualifying file. -/
def exWalkC6 : List WalkEntry :=
  [⟨[], []⟩,
   ⟨[(".git").data], []⟩,
   ⟨[(".git").data, ("kicks").data], [("a.wav").data]⟩]

/-- C6 counterexample: the catalog of `exWalkC6` has no groups at all, yet
`kicks` is a non-hidden, non-ignored directory name containing a qualifying
file, so the claimed key-set equality fails. -/
theorem c6_catalog_keys_counterexample :
    generate_json_groups exWalkC6 = [] ∧
      ∃ e ∈ exWalkC6, e.relDir.getLast? = some ("kicks").data ∧
        hiddenOrIgnored ("kicks").data = false ∧
        ∃ f ∈ e.files, allowedFile f = true := by
  constructor
  · decide
  · refine ⟨⟨[(".git").data, ("kicks").data], [("a.wav").data]⟩, by decide, by decide,
      by decide, ("a.wav").data, by decide, by decide⟩

/-- C6 (amended): every entry of a group names a file whose parent directory's
base name is exactly the group and whose extension is allowed
(case-insensitive); and the group keys are exactly the base names of the
non-root directories surviving the pruned walk (every path component
non-hidden and non-ignored) that contain at least one qualifying file — in
particular a directory with no qualifying file yields no group. -/
theorem c6_catalog_invariants_amended :
    (∀ (fs : List WalkEntry) (k : List Char) (l : List (List Char)),
      assocLookup k (generate_json_groups fs) = some l →
        ∀ it ∈ l, ∃ ds f, it = renderItem ds f ∧ ds.getLast? = some k ∧
          allowedFile f = true) ∧
    (∀ (fs : List WalkEntry) (k : List Char),
      (assocLookup k (generate_json_groups fs)).isSome = true ↔
        ∃ e ∈ prunedWalk fs, contributes e k) := by
  constructor
  · intro fs k l hl
    refine generate_fold_items (prunedWalk fs) [] ?_ k l hl
    intro k2 l2 hl2
    simp [assocLookup] at hl2
  · intro fs k
    rw [generate_json_groups, generate_fold_keys]
    simp [assocLookup]

theorem c6_catalog_invariants_amended_witness :
    (∃ ds f, ("/kicks/a.wav").data = renderItem ds f ∧
      ds.getLast? = some ("kicks").data ∧ allowedFile f = true) ∧
    ((assocLookup ("kicks").data (generate_json_groups
        [⟨[], [("root.wav").data]⟩,
         ⟨[("kicks").data], [("a.wav").data, ("b.txt").data]⟩])).isSome = true ↔
      ∃ e ∈ prunedWalk
        [⟨[], [("root.wav").data]⟩,
         ⟨[("kicks").data], [("a.wav").data, ("b.txt").data]⟩],
        contributes e ("kicks").data) :=
  ⟨c6_catalog_invariants_amended.1
      [⟨[], [("root.wav").data]⟩,
       ⟨[("kicks").data], [("a.wav").data, ("b.txt").data]⟩]
      ("kicks").data [("/kicks/a.wav").data] (by decide)
      ("/kicks/a.wav").data (by decide),
    c6_catalog_invariants_amended.2
      [⟨[], [("root.wav").data]⟩,
       ⟨[("kicks").data], [("a.wav").data, ("b.txt").data]⟩]
      ("kicks").data⟩

def lbraceChar : Char := Char.ofNat 123

def rbraceChar : Char := Char.ofNat 125

def hexDigitChar (n : Nat) : Char :=
  if n < 10 then Char.ofNat (48 + n) else Char.ofNat (87 + n)

/-- JSON string escaping as done by `json.dump(..., ensure_ascii=False)`:
quote, backslash and controls are escaped (shortcuts for the usual five,
`\u00XX` otherwise); every other character is emitted literally. -/
def escChar (c : Char) : List Char :=
  if c = '"' then ['\\', '"']
  else if c = '\\' then ['\\', '\\']
  else if c = '\n' then ['\\', 'n']
  else if c = '\t' then ['\\', 't']
  else if c = '\r' then ['\\', 'r']
  else if c.toNat = 8 then ['\\', 'b']
  else if c.toNat = 12 then ['\\', 'f']
  else if c.toNat < 32 then
    ['\\', 'u', '0', '0', hexDigitChar (c.toNat / 16), hexDigitChar (c.toNat % 16)]
  else [c]

def escapeStr : List Char → List Char
  | [] => []
  | c :: r => escChar c ++ escapeStr r

def jsonQuote (s : List Char) : List Char := '"' :: escapeStr s ++ ['"']

def jsonArrAux : List (List Char) → List Char
  | [] => []
  | [v] => jsonQuote v
  | v :: w :: r => jsonQuote v ++ ',' :: jsonArrAux (w :: r)

def jsonArr (vs : List (List Char)) : List Char := '[' :: jsonArrAux vs ++ [']']

def groupsPart : List (List Char × List (List Char)) → List Char
  | [] => []
  | (k, vs) :: r => ',' :: (jsonQuote k ++ ':' :: (jsonArr vs ++ groupsPart r))

/-- Model of `json.dump(data, fp, ensure_ascii=False, separators=(",", ":"))` of the
catalog dict `{"_base": base, group1: [...], ...}` (src/server.py lines 71-72,
src/strudel.py lines 93-94): compact separators, `_base` first, groups in
insertion order, and no trailing newline is written. -/
def serializeCatalog (base : List Char) (groups : List (List Char × List (List Char))) :
    List Char :=
  (lbraceChar :: (jsonQuote ("_base").data ++ ':' :: (jsonQuote base ++ groupsPart groups)))
    ++ [rbraceChar]

/-- Python dict/file-system assignment: replace in place, or append. -/
def assocSet {α : Type} : List (List Char × α) → List Char → α → List (List Char × α)
  | [], k, v => [(k, v)]
  | (k', v') :: r, k, v => if k' = k then (k, v) :: r else (k', v') :: assocSet r k v

def JSON_NAME : List Char := ("strudel.json").data

/-- Model of `open(ROOT / JSON_NAME, "w", ...)` + `json.dump`: mode `"w"` truncates, so
the write replaces whatever content the path previously held. -/
def persistCatalog (disk : List (List Char × List Char)) (content : List Char) :
    List (List Char × List Char) :=
  assocSet disk JSON_NAME content

def catalogWsFree (base : List Char) (groups : List (List Char × List (List Char))) : Bool :=
  noWsB base && groups.all (fun g => noWsB g.1 && g.2.all noWsB)

theorem hexDigit_noWs : ∀ m, m < 16 → isWs (hexDigitChar m) = false := by decide

theorem escChar_noWs (c : Char) (h : isWs c = false) : noWsB (escChar c) = true := by
  unfold escChar
  split_ifs with h1 h2 h3 h4 h5 h6 h7 h8
  · decide
  · decide
  · decide
  · decide
  · decide
  · decide
  · decide
  · simp only [noWsB, List.all_cons, List.all_nil, Bool.and_eq_true, Bool.not_eq_true',
      Bool.and_true]
    refine ⟨by decide, by decide, by decide, by decide, ?_, ?_⟩
    · exact hexDigit_noWs _ (by omega)
    · exact hexDigit_noWs _ (by omega)
  · simp [noWsB, h]

theorem noWsB_append_iff (a b : List Char) :
    noWsB (a ++ b) = (noWsB a && noWsB b) := by
  simp [noWsB, List.all_append]

theorem escapeStr_noWs (s : List Char) (h : noWsB s = true) : noWsB (escapeStr s) = true := by
  induction s with
  | nil => rfl
  | cons c r ih =>
    simp only [noWsB, List.all_cons, Bool.and_eq_true, Bool.not_eq_true'] at h
    rw [escapeStr, noWsB_append_iff, escChar_noWs c h.1]
    exact ih (by simpa [noWsB] using h.2)

theorem jsonQuote_noWs (s : List Char) (h : noWsB s = true) : noWsB (jsonQuote s) = true := by
  unfold jsonQuote
  rw [show ('"' :: escapeStr s ++ ['"'] : List Char)
    = ['"'] ++ escapeStr s ++ ['"'] from rfl]
  rw [noWsB_append_iff, noWsB_append_iff, escapeStr_noWs s h]
  decide

theorem jsonArrAux_noWs (vs : List (List Char)) (h : vs.all noWsB = true) :
    noWsB (jsonArrAux vs) = true := by
  induction vs with
  | nil => rfl
  | cons v r ih =>
    simp only [List.all_cons, Bool.and_eq_true] at h
    cases r with
    | nil => exact jsonQuote_noWs v h.1
    | cons w r' =>
      have ht := ih (by simp [h.2])
      rw [jsonArrAux, noWsB_append_iff, jsonQuote_noWs v h.1, Bool.true_and]
      show noWsB ([','] ++ jsonArrAux (w :: r')) = true
      rw [noWsB_append_iff, ht]
      decide

theorem jsonArr_noWs (vs : List (List Char)) (h : vs.all noWsB = true) :
    noWsB (jsonArr vs) = true := by
  unfold jsonArr
  show noWsB (['['] ++ jsonArrAux vs ++ [']']) = true
  rw [noWsB_append_iff, noWsB_append_iff, jsonArrAux_noWs vs h]
  decide

theorem groupsPart_noWs (groups : List (List Char × List (List Char)))
    (h : groups.all (fun g => noWsB g.1 && g.2.all noWsB) = true) :
    noWsB (groupsPart groups) = true := by
  induction groups with
  | nil => rfl
  | cons g r ih =>
    obtain ⟨k, vs⟩ := g
    simp only [List.all_cons, Bool.and_eq_true] at h
    rw [groupsPart]
    show noWsB ([','] ++ (jsonQuote k ++ ':' :: (jsonArr vs ++ groupsPart r))) = true
    rw [noWsB_append_iff, noWsB_append_iff]
    rw [show (':' :: (jsonArr vs ++ groupsPart r) : List Char)
      = [':'] ++ (jsonArr vs ++ groupsPart r) from rfl]
    rw [noWsB_append_iff, noWsB_append_iff]
    rw [jsonQuote_noWs k h.1.1, jsonArr_noWs vs h.1.2, ih h.2]
    decide

/-- C9 counterexample: the persisted catalog bytes end in a closing brace, not
a newline — `json.dump` writes no trailing newline (`newline="\n"` only
disables newline translation). -/
theorem c9_newline_counterexample :
    (serializeCatalog ("http://localhost:5432/").data
        [(("kicks").data, [("/kicks/a.wav").data])]).getLast? ≠ some '\n' ∧
    '\n' ∉ serializeCatalog ("http://localhost:5432/").data
        [(("kicks").data, [("/kicks/a.wav").data])] := by
  exact ⟨by decide, by decide⟩

/-- C9 (amended): the persisted catalog is compact JSON — the serializer
inserts no whitespace, so a catalog whose strings are whitespace-free
serializes without any whitespace at all — it always ends in the closing
brace (it is NOT newline-terminated), and writing it overwrites whatever
content previously existed at the catalog path. -/
theorem c9_serialization_amended :
    (∀ base groups, catalogWsFree base groups = true →
      noWsB (serializeCatalog base groups) = true) ∧
    (∀ base groups, (serializeCatalog base groups).getLast? = some rbraceChar) ∧
    (∀ (disk : List (List Char × List Char)) (content : List Char),
      assocLookup JSON_NAME (persistCatalog disk content) = some content) := by
  refine ⟨?_, ?_, ?_⟩
  · intro base groups h
    unfold catalogWsFree at h
    rw [Bool.and_eq_true] at h
    unfold serializeCatalog
    rw [noWsB_append_iff]
    rw [show (lbraceChar :: (jsonQuote ("_base").data ++ ':'
        :: (jsonQuote base ++ groupsPart groups)) : List Char)
      = [lbraceChar] ++ (jsonQuote ("_base").data ++ ':'
        :: (jsonQuote base ++ groupsPart groups)) from rfl]
    rw [noWsB_append_iff, noWsB_append_iff]
    rw [show (':' :: (jsonQuote base ++ groupsPart groups) : List Char)
      = [':'] ++ (jsonQuote base ++ groupsPart groups) from rfl]
    rw [noWsB_append_iff, noWsB_append_iff]
    rw [jsonQuote_noWs ("_base").data (by decide), jsonQuote_noWs base h.1,
      groupsPart_noWs groups h.2]
    decide
  · intro base groups
    unfold serializeCatalog
    exact List.getLast?_concat _
  · intro disk content
    unfold persistCatalog
    induction disk with
    | nil => simp [assocSet, assocLookup]
    | cons p r ih =>
      obtain ⟨k', v'⟩ := p
      by_cases hk : k' = JSON_NAME
      · rw [assocSet, if_pos hk, assocLookup, if_pos rfl]
      · rw [assocSet, if_neg hk, assocLookup, if_neg hk]
        exact ih

theorem c9_serialization_amended_witness :
    catalogWsFree ("http://localhost:5432/").data
        [(("kicks").data, [("/kicks/a.wav").data])] = true ∧
    noWsB (serializeCatalog ("http://localhost:5432/").data
        [(("kicks").data, [("/kicks/a.wav").data])]) = true ∧
    (serializeCatalog ("http://localhost:5432/").data
        [(("kicks").data, [("/kicks/a.wav").data])]).getLast? = some rbraceChar ∧
    assocLookup JSON_NAME
        (persistCatalog [(JSON_NAME, ("old-content").data)] ("new-content").data)
      = some ("new-content").data :=
  ⟨by decide,
    c9_serialization_amended.1 ("http://localhost:5432/").data
      [(("kicks").data, [("/kicks/a.wav").data])] (by decide),
    c9_serialization_amended.2.1 ("http://localhost:5432/").data
      [(("kicks").data, [("/kicks/a.wav").data])],
    c9_serialization_amended.2.2 [(JSON_NAME, ("old-content").data)]
      ("new-content").data⟩

/-- JSON values occurring in a loaded catalog object: strings and arrays of
strings. -/
inductive JVal where
  | jstr : List Char → JVal
  | jarr : List (List Char) → JVal
deriving DecidableEq

/-- Expression `self.headers.get("Host") or f"localhost:{PORT}"` (src/server.py line
139, `PORT = 5432`): Python `or` falls back both when the header is missing
and when it is present but empty, since `""` is falsy. -/
def hostHeaderOr (h : Option (List Char)) : List Char :=
  match h with
  | none => ("localhost:5432").data
  | some s => if s = [] then ("localhost:5432").data else s

/-- Assignment `data["_base"] = f"http://{host}/"` (src/server.py line 140) on the loaded
catalog dict. -/
def rewriteBase (obj : List (List Char × JVal)) (h : Option (List Char)) :
    List (List Char × JVal) :=
  assocSet obj ("_base").data
    (JVal.jstr (("http://").data ++ hostHeaderOr h ++ ("/").data))

theorem assocLookup_assocSet_self {α : Type} (l : List (List Char × α))
    (k : List Char) (v : α) : assocLookup k (assocSet l k v) = some v := by
  induction l with
  | nil => simp [assocSet, assocLookup]
  | cons p r ih =>
    obtain ⟨k', v'⟩ := p
    by_cases hk : k' = k
    · rw [assocSet, if_pos hk, assocLookup, if_pos rfl]
    · rw [assocSet, if_neg hk, assocLookup, if_neg hk]
      exact ih

theorem assocLookup_assocSet_ne {α : Type} (l : List (List Char × α))
    (k k2 : List Char) (v : α) (h : ¬ k2 = k) :
    assocLookup k2 (assocSet l k v) = assocLookup k2 l := by
  induction l with
  | nil =>
    have hk : ¬ k = k2 := fun he => h he.symm
    simp [assocSet, assocLookup, hk]
  | cons p r ih =>
    obtain ⟨k', v'⟩ := p
    by_cases hk : k' = k
    · rw [assocSet, if_pos hk]
      have h1 : ¬ k = k2 := fun he => h he.symm
      have h2 : ¬ k' = k2 := fun he => h (he.symm.trans hk)
      rw [assocLookup, if_neg h1, assocLookup, if_neg h2]
    · rw [assocSet, if_neg hk]
      by_cases hk2 : k' = k2
      · rw [assocLookup, if_pos hk2, assocLookup, if_pos hk2]
      · rw [assocLookup, if_neg hk2, assocLookup, if_neg hk2]
        exact ih

def keyNe {α : Type} (k : List Char) (p : List Char × α) : Bool := p.1 ≠ k

theorem filter_assocSet {α : Type} (l : List (List Char × α)) (k : List Char) (v : α) :
    (assocSet l k v).filter (keyNe k) = l.filter (keyNe k) := by
  induction l with
  | nil =>
    show ([(k, v)].filter (keyNe k)) = ([] : List (List Char × α)).filter (keyNe k)
    rw [List.filter_cons]
    have h1 : keyNe k (k, v) = false := by simp [keyNe]
    rw [h1]
    simp
  | cons p r ih =>
    obtain ⟨k', v'⟩ := p
    by_cases hk : k' = k
    · rw [assocSet, if_pos hk]
      have h1 : keyNe k (k, v) = false := by simp [keyNe]
      have h2 : keyNe k (k', v') = false := by simp [keyNe, hk]
      rw [List.filter_cons, h1, List.filter_cons, h2]
      simp
    · rw [assocSet, if_neg hk]
      rw [List.filter_cons, List.filter_cons]
      by_cases hkeep : keyNe k (k', v') = true
      · simp [hkeep, ih]
      · rw [Bool.not_eq_true] at hkeep
        simp [hkeep, ih]

/-- C7 counterexample: with a Host header that is present but empty, the
claim's rule demands `_base = "http:///"`, but the code's `or` falls back to
the configured default. -/
theorem c7_base_host_counterexample :
    assocLookup ("_base").data
        (rewriteBase [(("_base").data, JVal.jstr ("http://x/").data)] (some []))
      = some (JVal.jstr ("http://localhost:5432/").data) ∧
    JVal.jstr ("http://localhost:5432/").data
      ≠ JVal.jstr (("http://").data ++ [] ++ ("/").data) := by
  exact ⟨by decide, by decide⟩

/-- C7 (amended): the served catalog's `_base` is `"http://" + Host + "/"`
whenever the Host header is present and nonempty, and the configured default
`http://localhost:5432/` both when the header is absent and when it is
present but empty (Python's `or` treats `""` as falsy); every other key keeps
its value, and the non-`_base` keys keep their order and values verbatim. -/
theorem c7_base_rewrite_amended :
    (∀ (obj : List (List Char × JVal)) (s : List Char), s ≠ [] →
      assocLookup ("_base").data (rewriteBase obj (some s))
        = some (JVal.jstr (("http://").data ++ s ++ ("/").data))) ∧
    (∀ obj : List (List Char × JVal),
      assocLookup ("_base").data (rewriteBase obj none)
        = some (JVal.jstr ("http://localhost:5432/").data)) ∧
    (∀ obj : List (List Char × JVal),
      assocLookup ("_base").data (rewriteBase obj (some []))
        = some (JVal.jstr ("http://localhost:5432/").data)) ∧
    (∀ (obj : List (List Char × JVal)) (h : Option (List Char)) (k : List Char),
      ¬ k = ("_base").data →
        assocLookup k (rewriteBase obj h) = assocLookup k obj) ∧
    (∀ (obj : List (List Char × JVal)) (h : Option (List Char)),
      (rewriteBase obj h).filter (keyNe ("_base").data)
        = obj.filter (keyNe ("_base").data)) := by
  refine ⟨?_, ?_, ?_, ?_, ?_⟩
  · intro obj s hs
    unfold rewriteBase
    rw [assocLookup_assocSet_self]
    rw [hostHeaderOr, if_neg hs]
  · intro obj
    unfold rewriteBase
    rw [assocLookup_assocSet_self]
    decide
  · intro obj
    unfold rewriteBase
    rw [assocLookup_assocSet_self]
    decide
  · intro obj h k hk
    unfold rewriteBase
    exact assocLookup_assocSet_ne obj ("_base").data k _ hk
  · intro obj h
    unfold rewriteBase
    exact filter_assocSet obj ("_base").data _

theorem c7_base_rewrite_amended_witness :
    (("192.168.1.5:5432").data ≠ [] ∧
      assocLookup ("_base").data
          (rewriteBase [(("kicks").data, JVal.jarr [("/kicks/a.wav").data])]
            (some ("192.168.1.5:5432").data))
        = some (JVal.jstr (("http://").data ++ ("192.168.1.5:5432").data
            ++ ("/").data))) ∧
    assocLookup ("_base").data
        (rewriteBase [(("kicks").data, JVal.jarr [("/kicks/a.wav").data])] (some []))
      = some (JVal.jstr ("http://localhost:5432/").data) ∧
    (¬ ("kicks").data = ("_base").data ∧
      assocLookup ("kicks").data
          (rewriteBase [(("kicks").data, JVal.jarr [("/kicks/a.wav").data])]
            (some ("192.168.1.5:5432").data))
        = assocLookup ("kicks").data
            [(("kicks").data, JVal.jarr [("/kicks/a.wav").data])]) :=
  ⟨⟨by decide,
    c7_base_rewrite_amended.1 [(("kicks").data, JVal.jarr [("/kicks/a.wav").data])]
      ("192.168.1.5:5432").data (by decide)⟩,
   c7_base_rewrite_amended.2.2.1
      [(("kicks").data, JVal.jarr [("/kicks/a.wav").data])],
   ⟨by decide,
    c7_base_rewrite_amended.2.2.2.1 [(("kicks").data, JVal.jarr [("/kicks/a.wav").data])]
      (some ("192.168.1.5:5432").data) ("kicks").data (by decide)⟩⟩

/-- Outcome of `open(ROOT / JSON_NAME)` + `json.load` in
`_serve_strudel_json`: the file is absent (raising `FileNotFoundError`),
present but not valid JSON (raising a parse error), or loads to an object. -/
inductive CatalogRead where
  | absent : CatalogRead
  | invalid : CatalogRead
  | ok : List (List Char × JVal) → CatalogRead
deriving DecidableEq

/-- A handler outcome: a 200 response carrying the rewritten catalog object,
or `send_error` with an HTTP status and a message. -/
inductive ServeResult where
  | okResp : List (List Char × JVal) → ServeResult
  | notFound : List Char → ServeResult
  | serverError : List Char → ServeResult
deriving DecidableEq

/-- Method `_serve_strudel_json` (src/server.py lines 126-142): 404 on
`FileNotFoundError`, 500 with a diagnostic on any other load error, otherwise
serve the object with `_base` rewritten from the request's Host header. -/
def serve_strudel_json (read : CatalogRead) (host : Option (List Char)) : ServeResult :=
  match read with
  | .absent => .notFound ("No existe strudel.json en esta carpeta").data
  | .invalid => .serverError ("No se pudo leer strudel.json").data
  | .ok obj => .okResp (rewriteBase obj host)

/-- The rename pass of a rebuild with an I/O failure injected while the k-th
snapshot entry is processed: earlier steps stay applied (`src.rename` already
happened), the exception aborts the rest of the pass. The `Bool` records
whether the pass aborted. -/
def rename_files_fail : List (List Char) → List (List Char) → Nat →
    List (List Char) × Bool
  | st, [], _ => (st, false)
  | st, _ :: _, 0 => (st, true)
  | st, f :: fs, k + 1 => rename_files_fail (renameStep st f) fs k

/-- The `/rebuild` endpoint's except-clause (src/server.py lines 146-156): an
exception escaping the rename/regenerate sequence becomes
`send_error(500, ...)`; otherwise the small ok JSON is answered. -/
def do_rebuild (outcome : List (List Char) × Bool) : ServeResult :=
  if outcome.2 = true then .serverError ("rebuild error").data else .okResp []

theorem rename_files_fail_eq (snapshot : List (List Char)) :
    ∀ st k, k < snapshot.length →
      rename_files_fail st snapshot k = ((snapshot.take k).foldl renameStep st, true) := by
  induction snapshot with
  | nil =>
    intro st k hk
    simp at hk
  | cons f fs ih =>
    intro st k hk
    match k with
    | 0 => rfl
    | k' + 1 =>
      rw [rename_files_fail]
      rw [List.length_cons] at hk
      rw [ih (renameStep st f) k' (by omega)]
      rfl

/-- C8: serving the catalog yields 404 exactly when the catalog file is
absent; a present-but-invalid catalog yields 500 with a diagnostic; and a
rename failure during a rebuild makes the endpoint answer 500 while the
renames completed before the failure remain applied (no rollback). -/
theorem c8_error_handling :
    (∀ (read : CatalogRead) (host : Option (List Char)),
      (∃ msg, serve_strudel_json read host = .notFound msg) ↔ read = .absent) ∧
    (∀ host : Option (List Char),
      ∃ msg, msg ≠ [] ∧ serve_strudel_json .invalid host = .serverError msg) ∧
    (∀ (files : List (List Char)) (k : Nat), k < files.length →
      do_rebuild (rename_files_fail files files k)
          = .serverError ("rebuild error").data ∧
        (rename_files_fail files files k).1 = (files.take k).foldl renameStep files) := by
  refine ⟨?_, ?_, ?_⟩
  · intro read host
    cases read with
    | absent =>
      constructor
      · intro _
        rfl
      · intro _
        exact ⟨("No existe strudel.json en esta carpeta").data, rfl⟩
    | invalid =>
      constructor
      · rintro ⟨msg, h⟩
        cases h
      · intro h
        cases h
    | ok obj =>
      constructor
      · rintro ⟨msg, h⟩
        cases h
      · intro h
        cases h
  · intro host
    exact ⟨("No se pudo leer strudel.json").data, by decide, rfl⟩
  · intro files k hk
    rw [rename_files_fail_eq files files k hk]
    exact ⟨rfl, rfl⟩

theorem c8_error_handling_witness :
    ((∃ msg, serve_strudel_json .absent (some ("h").data) = .notFound msg) ↔
      (CatalogRead.absent = .absent)) ∧
    (∃ msg, msg ≠ [] ∧
      serve_strudel_json .invalid none = .serverError msg) ∧
    (1 < ([("a b.wav").data, ("c.wav").data] : List (List Char)).length ∧
      do_rebuild (rename_files_fail [("a b.wav").data, ("c.wav").data]
          [("a b.wav").data, ("c.wav").data] 1)
        = .serverError ("rebuild error").data ∧
      (rename_files_fail [("a b.wav").data, ("c.wav").data]
          [("a b.wav").data, ("c.wav").data] 1).1
        = ([("a b.wav").data, ("c.wav").data].take 1).foldl renameStep
            [("a b.wav").data, ("c.wav").data]) :=
  ⟨c8_error_handling.1 .absent (some ("h").data),
   c8_error_handling.2.1 none,
   by decide,
   (c8_error_handling.2.2 [("a b.wav").data, ("c.wav").data] 1 (by decide)).1,
   (c8_error_handling.2.2 [("a b.wav").data, ("c.wav").data] 1 (by decide)).2⟩

def splitSlashAux : List Char → List Char → List (List Char)
  | acc, [] => [acc.reverse]
  | acc, c :: cs =>
    if c = '/' then acc.reverse :: splitSlashAux [] cs
    else splitSlashAux (c :: acc) cs

/-- Path-component split of a relative path string on `/`. -/
def splitSlash (s : List Char) : List (List Char) := splitSlashAux [] s

/-- One component of POSIX canonicalization as performed by
`Path.resolve()` in the absence of symlinks: empty and `.` components vanish,
`..` pops (clamping at the filesystem root), anything else descends. -/
def resolveStep (acc : List (List Char)) (seg : List Char) : List (List Char) :=
  if seg = [] ∨ seg = (".").data then acc
  else if seg = ("..").data then acc.dropLast
  else acc ++ [seg]

/-- Model of `(ROOT / rel).resolve()` with `ROOT` already canonical (absolute path as
segments). -/
def resolvePath (root : List (List Char)) (segs : List (List Char)) : List (List Char) :=
  segs.foldl resolveStep root

/-- Rendering `str(path)` of a canonical absolute path. -/
def strOfAbs (p : List (List Char)) : List Char :=
  if p = [] then ("/").data else p.foldl (fun a s => a ++ '/' :: s) []

inductive GetResult where
  | rebuildResp : GetResult
  | catalogResp : GetResult
  | forbidden : GetResult
  | serveFile : List (List Char) → GetResult
  | fallback : GetResult
deriving DecidableEq

/-- Method `StrudelHandler.do_GET` (src/server.py lines 144-180): the `/rebuild`
prefix first, then the two catalog paths, then the static branch — strip the
leading slashes and any `?`/`#` suffix, join to `ROOT`, resolve, and refuse
with 403 when `str(local)` does not start with `str(ROOT)` (a plain string
prefix test); an existing file is streamed, anything else falls back to the
parent handler. -/
def do_GET (root : List (List Char)) (fsFiles : List (List (List Char)))
    (path : List Char) : GetResult :=
  if (("/rebuild").data).isPrefixOf path = true then .rebuildResp
  else if path = ("/").data ∨ path = ("/strudel.json").data then .catalogResp
  else
    let rel := ((path.dropWhile (fun c => c = '/')).takeWhile
        (fun c => c ≠ '?')).takeWhile (fun c => c ≠ '#')
    let localp := resolvePath root (splitSlash rel)
    if ¬ ((strOfAbs root).isPrefixOf (strOfAbs localp) = true) then .forbidden
    else if localp ∈ fsFiles then .serveFile localp
    else .fallback

/-- The containment notion the claim states: the canonicalized path is a
descendant of the tree root's canonical form (segment-wise prefix). -/
def isDescendantOf (root p : List (List Char)) : Bool := root.isPrefixOf p

/-- C1: with `ROOT = /srv/samples`, the request `/../samples-secret/x.wav`
resolves to `/srv/samples-secret/x.wav`, which is NOT a descendant of the
root, yet `str(local).startswith(str(ROOT))` accepts it because the sibling
directory's name extends the root's name as a string, and the file outside
the tree root is served; plain `..` escapes such as `/../../etc/passwd` are
still refused. -/
theorem c1_path_check_code_bug :
    do_GET [("srv").data, ("samples").data]
        [[("srv").data, ("samples-secret").data, ("x.wav").data]]
        ("/../samples-secret/x.wav").data
      = .serveFile [("srv").data, ("samples-secret").data, ("x.wav").data] ∧
    isDescendantOf [("srv").data, ("samples").data]
        [("srv").data, ("samples-secret").data, ("x.wav").data] = false ∧
    do_GET [("srv").data, ("samples").data]
        [[("srv").data, ("samples-secret").data, ("x.wav").data]]
        ("/../../etc/passwd").data
      = .forbidden := by
  exact ⟨by decide, by decide, by decide⟩
